import Mathlib

/-!
Verification of the reconciliation core of spotify_compare.py.

Python strings are modelled as lists of characters, floating point
similarity scores as exact rationals, and the external rapidfuzz
library functions (fuzz.token_sort_ratio, process.extractOne) by their
documented algorithm: tokenize on whitespace, sort the tokens, join
with single spaces, and compute the normalized Indel similarity scaled
to 0..100; extractOne returns the first choice attaining the maximum
score, or none when there are no choices.
-/

/-- Model of a Python string: a list of characters. -/
abbrev Str := List Char

/-- Accumulator-based splitter: the accumulator holds the reversed
characters of the token currently being read.  Models the behaviour of
the Python str.split() method with no arguments: split on runs of
whitespace, dropping empty pieces. -/
def splitWsAux : List Char → List Char → List Str
  | [], acc => if acc = [] then [] else [acc.reverse]
  | c :: cs, acc =>
      if c.isWhitespace then
        (if acc = [] then splitWsAux cs [] else acc.reverse :: splitWsAux cs [])
      else splitWsAux cs (c :: acc)

/-- Whitespace tokenization of a string, as performed by the scorer. -/
def splitWs (s : Str) : List Str := splitWsAux s []

/-- Lexicographic comparison of strings by character code point, as
used by Python sorted() on strings. -/
def lexLe : Str → Str → Bool
  | [], _ => true
  | _ :: _, [] => false
  | a :: as, b :: bs => if a < b then true else if b < a then false else lexLe as bs

/-- Sort a token list lexicographically. -/
def sortTokens (ts : List Str) : List Str := ts.mergeSort lexLe

/-- Join tokens with single spaces, as performed by " ".join(...). -/
def joinTokens : List Str → Str
  | [] => []
  | [w] => w
  | w :: ws => w ++ ' ' :: joinTokens ws

/-- Indel distance between two strings: the least number of single
character insertions and deletions turning one into the other.  This is
the distance underlying the rapidfuzz ratio scorer. -/
def indel : Str → Str → ℕ
  | [], t => t.length
  | s, [] => s.length
  | a :: s, b :: t =>
      if a = b then
        min (indel s t) (min (indel s (b :: t) + 1) (indel (a :: s) t + 1))
      else min (indel s (b :: t) + 1) (indel (a :: s) t + 1)
termination_by s t => s.length + t.length
decreasing_by all_goals simp_arith

/-- Normalized Indel similarity scaled to the range 0..100, the value
computed by the rapidfuzz basic scorer on two strings; two empty
strings score 100. -/
def normSim (s t : Str) : ℚ :=
  if s.length + t.length = 0 then 100
  else 100 * (((s.length : ℚ) + t.length - indel s t) / ((s.length : ℚ) + t.length))

/-- Sorted-token normal form of a string: tokenize, sort, rejoin. -/
def sortJoin (s : Str) : Str := joinTokens (sortTokens (splitWs s))

/-- Model of the scorer passed to extractOne in find_missing_tracks:
rapidfuzz fuzz.token_sort_ratio, which compares the sorted-token
normal forms of the two strings with the basic scorer. -/
def tokenSortSim (a b : Str) : ℚ := normSim (sortJoin a) (sortJoin b)

/-- Model of rapidfuzz process.extractOne with the token-sort scorer
and no cutoff: none when the choice list is empty, otherwise the first
choice attaining the maximum score, paired with that score. -/
def extractOne (q : Str) : List Str → Option (Str × ℚ)
  | [] => none
  | c :: cs =>
      match extractOne q cs with
      | none => some (c, tokenSortSim q c)
      | some (b, s) =>
          if tokenSortSim q c < s then some (b, s) else some (c, tokenSortSim q c)

/-- Classification of one remote entry. -/
inductive Status
  | Matched
  | Missing
deriving DecidableEq

/-- Match result for one remote entry: the spec's record of the values
computed by one iteration of the loop in find_missing_tracks. -/
structure MatchResult where
  query : Str
  best_candidate : Option Str
  score : ℚ
  status : Status
deriving DecidableEq

/-- Values computed by one iteration of the loop body of
find_missing_tracks (src/spotify_compare.py lines 129-132): the best
candidate and score returned by extractOne, and the threshold test
that decides whether the entry is appended to the missing list.  When
extractOne returns nothing the score defaults to 0, as in the
expression (match[1] or 0). -/
def classify (local_tracks : List Str) (threshold : ℚ) (q : Str) : MatchResult :=
  match extractOne q local_tracks with
  | none => ⟨q, none, 0, Status.Missing⟩
  | some (b, s) =>
      if s < threshold then ⟨q, some b, s, Status.Missing⟩
      else ⟨q, some b, s, Status.Matched⟩

/-- Per-entry result sequence of the engine: one MatchResult per
remote entry, in order.  The code materializes only the Missing subset
(find_missing_tracks); this is the full classification it computes. -/
def reconcile (remote local_tracks : List Str) (threshold : ℚ) : List MatchResult :=
  remote.map (classify local_tracks threshold)

/-- Model of find_missing_tracks (src/spotify_compare.py lines
126-135): keep each Spotify track whose extractOne result is absent or
scores strictly below the threshold. -/
def find_missing_tracks (spotify_tracks local_tracks : List Str) (threshold : ℚ) : List Str :=
  spotify_tracks.filter fun q =>
    match extractOne q local_tracks with
    | none => true
    | some (_, s) => decide (s < threshold)

/-- Maximum token-sort similarity of a query over a candidate list
(0 when the list is empty). -/
def maxScore (q : Str) (local_tracks : List Str) : ℚ :=
  (local_tracks.map (tokenSortSim q)).foldr max 0

/-- Model of the lookup loop of create_missing_playlist
(src/spotify_compare.py lines 151-155): search each missing track and
collect the URIs of those searches that returned an item; searches
returning nothing contribute nothing to the list. -/
def resolve_uris (missing_tracks : List Str) (search_one : Str → Option Str) : List Str :=
  missing_tracks.filterMap search_one

/-- Model of create_missing_playlist (src/spotify_compare.py lines
141-163).  First component: none when the missing list is empty (the
function returns early), otherwise the collected URIs of the playlist
that gets created.  Second component: the queries issued to the remote
search, in order. -/
def create_missing_playlist (missing_tracks : List Str) (search_one : Str → Option Str) :
    Option (List Str) × List Str :=
  if missing_tracks = [] then (none, [])
  else (some (resolve_uris missing_tracks search_one), missing_tracks)

/-- Sentinel artist used when a source provides no artist. -/
def unknownArtist : Str := "Unknown".data

/-- Separator placed between artist and title in a canonical key. -/
def keySep : Str := " - ".data

/-- Key construction of get_spotify_tracks (src/spotify_compare.py
lines 89-93): given the track name and the list of artist names, build
"artist - name" with artist defaulting to "Unknown" when the artist
list is empty; a track with an empty name yields no key. -/
def spotify_key (name : Str) (artist_names : List Str) : Option Str :=
  if name = [] then none
  else some (artist_names.headD unknownArtist ++ keySep ++ name)

/-- Key construction of get_local_tracks (src/spotify_compare.py lines
111-118) for one audio file.  The tags argument is some (artist, title
tag options) when EasyID3 succeeds and none when it raises; stem is
the filename without extension.  On success the key is
"artist - title" with the tag defaults of the source; on failure the
key is the bare stem. -/
def local_key (tags : Option (Option Str × Option Str)) (stem : Str) : Str :=
  match tags with
  | some (a, t) => a.getD unknownArtist ++ keySep ++ t.getD stem
  | none => stem


/-! Basic properties of the Indel distance. -/

theorem indel_nil_left (t : Str) : indel [] t = t.length := by
  simp [indel]

theorem indel_nil_right (s : Str) : indel s [] = s.length := by
  cases s <;> simp [indel]

theorem indel_cons_eq (a : Char) (s t : Str) :
    indel (a :: s) (a :: t) =
      min (indel s t) (min (indel s (a :: t) + 1) (indel (a :: s) t + 1)) := by
  simp [indel]

theorem indel_cons_ne {a b : Char} (hab : a ≠ b) (s t : Str) :
    indel (a :: s) (b :: t) = min (indel s (b :: t) + 1) (indel (a :: s) t + 1) := by
  simp [indel, hab]

theorem indel_self : ∀ s : Str, indel s s = 0
  | [] => by simp [indel]
  | a :: s => by rw [indel_cons_eq, indel_self s]; omega

theorem indel_eq_zero : ∀ s t : Str, indel s t = 0 → s = t := by
  intro s
  induction s with
  | nil =>
    intro t h
    rw [indel_nil_left] at h
    exact (List.length_eq_zero.mp h).symm
  | cons a s ih =>
    intro t h
    cases t with
    | nil => rw [indel_nil_right] at h; simp at h
    | cons b t =>
      by_cases hab : a = b
      · subst hab
        rw [indel_cons_eq] at h
        have h0 : indel s t = 0 := by omega
        rw [ih t h0]
      · rw [indel_cons_ne hab] at h
        omega

theorem indel_symm : ∀ s t : Str, indel s t = indel t s := by
  have key : ∀ n, ∀ s t : Str, s.length + t.length ≤ n → indel s t = indel t s := by
    intro n
    induction n with
    | zero =>
      intro s t h
      cases s with
      | nil => rw [indel_nil_left, indel_nil_right]
      | cons a s => simp at h
    | succ n ih =>
      intro s t h
      cases s with
      | nil => rw [indel_nil_left, indel_nil_right]
      | cons a s =>
        cases t with
        | nil => rw [indel_nil_left, indel_nil_right]
        | cons b t =>
          simp only [List.length_cons] at h
          have e1 : indel s t = indel t s := ih s t (by omega)
          have e2 : indel s (b :: t) = indel (b :: t) s := ih s (b :: t) (by simp; omega)
          have e3 : indel (a :: s) t = indel t (a :: s) := ih (a :: s) t (by simp; omega)
          by_cases hab : a = b
          · subst hab
            rw [indel_cons_eq, indel_cons_eq, e1, e2, e3]
            omega
          · have hba : b ≠ a := fun hc => hab hc.symm
            rw [indel_cons_ne hab, indel_cons_ne hba, e2, e3]
            omega
  exact fun s t => key (s.length + t.length) s t le_rfl

theorem indel_le_sum : ∀ s t : Str, indel s t ≤ s.length + t.length := by
  have key : ∀ n, ∀ s t : Str, s.length + t.length ≤ n → indel s t ≤ s.length + t.length := by
    intro n
    induction n with
    | zero =>
      intro s t h
      cases s with
      | nil => rw [indel_nil_left]; omega
      | cons a s => simp at h
    | succ n ih =>
      intro s t h
      cases s with
      | nil => rw [indel_nil_left]; omega
      | cons a s =>
        cases t with
        | nil => rw [indel_nil_right]; omega
        | cons b t =>
          simp only [List.length_cons] at h ⊢
          have e2 : indel s (b :: t) ≤ s.length + (b :: t).length := ih s (b :: t) (by simp; omega)
          have e3 : indel (a :: s) t ≤ (a :: s).length + t.length := ih (a :: s) t (by simp; omega)
          simp only [List.length_cons] at e2 e3
          by_cases hab : a = b
          · subst hab
            have e1 : indel s t ≤ s.length + t.length := ih s t (by omega)
            rw [indel_cons_eq]
            omega
          · rw [indel_cons_ne hab]
            omega
  exact fun s t => key (s.length + t.length) s t le_rfl

/-! Properties of the normalized similarity. -/

theorem normSim_symm (s t : Str) : normSim s t = normSim t s := by
  by_cases h : s.length + t.length = 0
  · have h' : t.length + s.length = 0 := by omega
    simp [normSim, h, h']
  · have h' : ¬ t.length + s.length = 0 := by omega
    simp only [normSim, if_neg h, if_neg h', indel_symm s t]
    ring_nf

theorem normSim_nonneg (s t : Str) : 0 ≤ normSim s t := by
  by_cases h : s.length + t.length = 0
  · simp [normSim, h]
  · simp only [normSim, if_neg h]
    have hpos : (0 : ℚ) < (s.length : ℚ) + t.length := by
      have : 0 < s.length + t.length := Nat.pos_of_ne_zero h
      exact_mod_cast this
    have hle : (indel s t : ℚ) ≤ (s.length : ℚ) + t.length := by
      exact_mod_cast indel_le_sum s t
    have hnum : (0 : ℚ) ≤ (s.length : ℚ) + t.length - indel s t := by linarith
    positivity

theorem normSim_le_100 (s t : Str) : normSim s t ≤ 100 := by
  by_cases h : s.length + t.length = 0
  · simp [normSim, h]
  · simp only [normSim, if_neg h]
    have hpos : (0 : ℚ) < (s.length : ℚ) + t.length := by
      have : 0 < s.length + t.length := Nat.pos_of_ne_zero h
      exact_mod_cast this
    have hdiv : ((s.length : ℚ) + t.length - indel s t) / ((s.length : ℚ) + t.length) ≤ 1 := by
      rw [div_le_one hpos]
      have : (0 : ℚ) ≤ (indel s t : ℚ) := by positivity
      linarith
    linarith

theorem normSim_eq_100_iff (s t : Str) : normSim s t = 100 ↔ s = t := by
  by_cases h : s.length + t.length = 0
  · have hs : s = [] := List.length_eq_zero.mp (by omega)
    have ht : t = [] := List.length_eq_zero.mp (by omega)
    subst hs; subst ht
    simp [normSim]
  · simp only [normSim, if_neg h]
    have hpos : (0 : ℚ) < (s.length : ℚ) + t.length := by
      have : 0 < s.length + t.length := Nat.pos_of_ne_zero h
      exact_mod_cast this
    constructor
    · intro h100
      have hdiv : ((s.length : ℚ) + t.length - indel s t) / ((s.length : ℚ) + t.length) = 1 := by
        have h100' : (100 : ℚ) * (((s.length : ℚ) + t.length - indel s t) /
            ((s.length : ℚ) + t.length)) = 100 * 1 := by rw [h100]; norm_num
        exact mul_left_cancel₀ (by norm_num) h100'
      rw [div_eq_one_iff_eq (ne_of_gt hpos)] at hdiv
      have hz : (indel s t : ℚ) = 0 := by linarith
      exact indel_eq_zero s t (by exact_mod_cast hz)
    · intro hst
      subst hst
      rw [indel_self s]
      push_cast
      rw [sub_zero, div_self (ne_of_gt hpos)]
      norm_num

/-! Tokens produced by the splitter are nonempty and whitespace-free. -/

theorem splitWsAux_mem : ∀ (s acc : List Char), (∀ c ∈ acc, c.isWhitespace = false) →
    ∀ w ∈ splitWsAux s acc, w ≠ [] ∧ ∀ c ∈ w, c.isWhitespace = false := by
  intro s
  induction s with
  | nil =>
    intro acc hacc w hw
    by_cases h : acc = []
    · simp [splitWsAux, h] at hw
    · simp only [splitWsAux, if_neg h, List.mem_singleton] at hw
      subst hw
      refine ⟨by simpa using h, fun c hc => hacc c (List.mem_reverse.mp hc)⟩
  | cons c cs ih =>
    intro acc hacc w hw
    simp only [splitWsAux] at hw
    by_cases hws : c.isWhitespace = true
    · rw [if_pos hws] at hw
      by_cases h : acc = []
      · rw [if_pos h] at hw
        exact ih [] (by simp) w hw
      · rw [if_neg h] at hw
        rcases List.mem_cons.mp hw with h1 | h1
        · subst h1
          refine ⟨by simpa using h, fun d hd => hacc d (List.mem_reverse.mp hd)⟩
        · exact ih [] (by simp) w h1
    · rw [if_neg hws] at hw
      refine ih (c :: acc) ?_ w hw
      intro d hd
      rcases List.mem_cons.mp hd with rfl | h1
      · simpa using hws
      · exact hacc d h1

theorem splitWs_spec (s : Str) : ∀ w ∈ splitWs s, w ≠ [] ∧ ∀ c ∈ w, c.isWhitespace = false :=
  splitWsAux_mem s [] (by simp)

/-! The lexicographic comparison is a total preorder with antisymmetry. -/

theorem lexLe_total : ∀ x y : Str, lexLe x y = true ∨ lexLe y x = true := by
  intro x
  induction x with
  | nil => intro y; left; rfl
  | cons a as ih =>
    intro y
    cases y with
    | nil => right; rfl
    | cons b bs =>
      rcases lt_trichotomy a b with h | h | h
      · left; simp [lexLe, h]
      · subst h
        rcases ih bs with h1 | h1
        · left; simp [lexLe, lt_irrefl, h1]
        · right; simp [lexLe, lt_irrefl, h1]
      · right; simp [lexLe, h]

theorem lexLe_trans : ∀ x y z : Str, lexLe x y = true → lexLe y z = true → lexLe x z = true := by
  intro x
  induction x with
  | nil => intro y z h1 h2; rfl
  | cons a as ih =>
    intro y z h1 h2
    cases y with
    | nil => simp [lexLe] at h1
    | cons b bs =>
      cases z with
      | nil => simp [lexLe] at h2
      | cons c cs =>
        simp only [lexLe] at h1 h2 ⊢
        rcases lt_trichotomy a b with hab | hab | hab
        · rcases lt_trichotomy b c with hbc | hbc | hbc
          · simp [lt_trans hab hbc]
          · subst hbc; simp [hab]
          · rw [if_neg (lt_asymm hbc), if_pos hbc] at h2; simp at h2
        · subst hab
          rcases lt_trichotomy a c with hac | hac | hac
          · simp [hac]
          · subst hac
            rw [if_neg (lt_irrefl a), if_neg (lt_irrefl a)] at h1 h2 ⊢
            exact ih bs cs h1 h2
          · rw [if_neg (lt_asymm hac), if_pos hac] at h2; simp at h2
        · rw [if_neg (lt_asymm hab), if_pos hab] at h1; simp at h1

theorem lexLe_antisymm : ∀ x y : Str, lexLe x y = true → lexLe y x = true → x = y := by
  intro x
  induction x with
  | nil =>
    intro y h1 h2
    cases y with
    | nil => rfl
    | cons b bs => simp [lexLe] at h2
  | cons a as ih =>
    intro y h1 h2
    cases y with
    | nil => simp [lexLe] at h1
    | cons b bs =>
      simp only [lexLe] at h1 h2
      rcases lt_trichotomy a b with hab | hab | hab
      · rw [if_neg (lt_asymm hab), if_pos hab] at h2; simp at h2
      · subst hab
        rw [if_neg (lt_irrefl a), if_neg (lt_irrefl a)] at h1 h2
        rw [ih bs h1 h2]
      · rw [if_neg (lt_asymm hab), if_pos hab] at h1; simp at h1

theorem sortTokens_eq_of_perm {xs ys : List Str} (h : List.Perm xs ys) :
    sortTokens xs = sortTokens ys := by
  haveI : IsAntisymm Str (fun a b => lexLe a b = true) := ⟨fun a b => lexLe_antisymm a b⟩
  have hperm : List.Perm (sortTokens xs) (sortTokens ys) :=
    (List.mergeSort_perm xs lexLe).trans (h.trans (List.mergeSort_perm ys lexLe).symm)
  have htot : ∀ a b : Str, (lexLe a b || lexLe b a) = true := by
    intro a b
    rcases lexLe_total a b with h1 | h1 <;> simp [h1]
  have s1 : List.Sorted (fun a b => lexLe a b = true) (sortTokens xs) :=
    List.sorted_mergeSort (fun a b c => lexLe_trans a b c) htot xs
  have s2 : List.Sorted (fun a b => lexLe a b = true) (sortTokens ys) :=
    List.sorted_mergeSort (fun a b c => lexLe_trans a b c) htot ys
  exact List.eq_of_perm_of_sorted hperm s1 s2

/-! Injectivity of the space-join on nonempty space-free tokens. -/

theorem append_space_inj : ∀ (x y u v : Str), ' ' ∉ x → ' ' ∉ y →
    x ++ ' ' :: u = y ++ ' ' :: v → x = y ∧ u = v := by
  intro x
  induction x with
  | nil =>
    intro y u v hx hy h
    cases y with
    | nil =>
      simp only [List.nil_append] at h
      exact ⟨rfl, (List.cons.injEq _ _ _ _).mp h |>.2⟩
    | cons b bs =>
      simp only [List.nil_append, List.cons_append] at h
      injection h with h1 h2
      exact absurd (h1 ▸ List.mem_cons_self b bs) hy
  | cons a as ih =>
    intro y u v hx hy h
    cases y with
    | nil =>
      simp only [List.cons_append, List.nil_append] at h
      injection h with h1 h2
      exact absurd (h1 ▸ List.mem_cons_self a as) hx
    | cons b bs =>
      simp only [List.cons_append] at h
      injection h with h1 h2
      subst h1
      have hx' : ' ' ∉ as := fun hm => hx (List.mem_cons_of_mem _ hm)
      have hy' : ' ' ∉ bs := fun hm => hy (List.mem_cons_of_mem _ hm)
      obtain ⟨e1, e2⟩ := ih bs u v hx' hy' h2
      exact ⟨by rw [e1], e2⟩

theorem joinTokens_inj : ∀ xs ys : List Str,
    (∀ w ∈ xs, w ≠ [] ∧ ' ' ∉ w) → (∀ w ∈ ys, w ≠ [] ∧ ' ' ∉ w) →
    joinTokens xs = joinTokens ys → xs = ys := by
  intro xs
  induction xs with
  | nil =>
    intro ys hxs hys h
    cases ys with
    | nil => rfl
    | cons y ys' =>
      cases ys' with
      | nil =>
        simp only [joinTokens] at h
        exact absurd h.symm (hys y (by simp)).1
      | cons y2 ys'' =>
        simp only [joinTokens] at h
        exact absurd h.symm (by simp)
  | cons x xs' ih =>
    intro ys hxs hys h
    cases ys with
    | nil =>
      cases xs' with
      | nil =>
        simp only [joinTokens] at h
        exact absurd h (hxs x (by simp)).1
      | cons x2 xs'' =>
        simp only [joinTokens] at h
        exact absurd h (by simp)
    | cons y ys' =>
      cases xs' with
      | nil =>
        cases ys' with
        | nil =>
          simp only [joinTokens] at h
          rw [h]
        | cons y2 ys'' =>
          simp only [joinTokens] at h
          have hsp : ' ' ∈ x := by rw [h]; simp
          exact absurd hsp (hxs x (by simp)).2
      | cons x2 xs'' =>
        cases ys' with
        | nil =>
          simp only [joinTokens] at h
          have hsp : ' ' ∈ y := by rw [← h]; simp
          exact absurd hsp (hys y (by simp)).2
        | cons y2 ys'' =>
          simp only [joinTokens] at h
          obtain ⟨e1, e2⟩ :=
            append_space_inj x y _ _ (hxs x (by simp)).2 (hys y (by simp)).2 h
          rw [e1, ih (y2 :: ys'') (fun w hw => hxs w (List.mem_cons_of_mem _ hw))
            (fun w hw => hys w (List.mem_cons_of_mem _ hw)) e2]

theorem sortTokens_token_spec {s : Str} : ∀ w ∈ sortTokens (splitWs s), w ≠ [] ∧ ' ' ∉ w := by
  intro w hw
  have hmem : w ∈ splitWs s := ((List.mergeSort_perm (splitWs s) lexLe).mem_iff).mp hw
  obtain ⟨h1, h2⟩ := splitWs_spec s w hmem
  exact ⟨h1, fun hsp => absurd (h2 ' ' hsp) (by decide)⟩

theorem sortJoin_eq_iff {a b : Str} :
    sortJoin a = sortJoin b ↔ List.Perm (splitWs a) (splitWs b) := by
  constructor
  · intro h
    have hst : sortTokens (splitWs a) = sortTokens (splitWs b) :=
      joinTokens_inj _ _ (fun w hw => sortTokens_token_spec w hw)
        (fun w hw => sortTokens_token_spec w hw) h
    have p1 := (List.mergeSort_perm (splitWs a) lexLe).symm
    rw [show (splitWs a).mergeSort lexLe = sortTokens (splitWs a) from rfl, hst] at p1
    exact p1.trans (List.mergeSort_perm (splitWs b) lexLe)
  · intro h
    unfold sortJoin
    rw [sortTokens_eq_of_perm h]

/-! Properties of the token-sort scorer. -/

theorem tokenSortSim_symm (a b : Str) : tokenSortSim a b = tokenSortSim b a :=
  normSim_symm _ _

theorem tokenSortSim_nonneg (a b : Str) : 0 ≤ tokenSortSim a b :=
  normSim_nonneg _ _

theorem tokenSortSim_le_100 (a b : Str) : tokenSortSim a b ≤ 100 :=
  normSim_le_100 _ _

theorem tokenSortSim_eq_100_iff (a b : Str) :
    tokenSortSim a b = 100 ↔ List.Perm (splitWs a) (splitWs b) :=
  (normSim_eq_100_iff _ _).trans sortJoin_eq_iff

theorem tokenSortSim_congr_left {a a' : Str} (h : List.Perm (splitWs a) (splitWs a'))
    (b : Str) : tokenSortSim a b = tokenSortSim a' b := by
  unfold tokenSortSim sortJoin
  rw [sortTokens_eq_of_perm h]

/-! Properties of the best-candidate search. -/

theorem extractOne_cons_none {q c : Str} {cs : List Str} (h : extractOne q cs = none) :
    extractOne q (c :: cs) = some (c, tokenSortSim q c) := by
  simp only [extractOne, h]

theorem extractOne_cons_some {q c b : Str} {cs : List Str} {s : ℚ}
    (h : extractOne q cs = some (b, s)) :
    extractOne q (c :: cs) =
      if tokenSortSim q c < s then some (b, s) else some (c, tokenSortSim q c) := by
  simp only [extractOne, h]

theorem extractOne_nil (q : Str) : extractOne q [] = none := rfl

theorem maxScore_nil (q : Str) : maxScore q [] = 0 := rfl

theorem maxScore_cons (q c : Str) (cs : List Str) :
    maxScore q (c :: cs) = max (tokenSortSim q c) (maxScore q cs) := rfl

theorem extractOne_spec (q : Str) : ∀ (cs : List Str) (c : Str),
    ∃ b, extractOne q (c :: cs) = some (b, maxScore q (c :: cs)) ∧ b ∈ c :: cs := by
  intro cs
  induction cs with
  | nil =>
    intro c
    refine ⟨c, ?_, by simp⟩
    rw [extractOne_cons_none (extractOne_nil q), maxScore_cons, maxScore_nil,
      max_eq_left (tokenSortSim_nonneg q c)]
  | cons c2 cs ih =>
    intro c
    obtain ⟨b, hb, hmem⟩ := ih c2
    by_cases hlt : tokenSortSim q c < maxScore q (c2 :: cs)
    · refine ⟨b, ?_, List.mem_cons_of_mem _ hmem⟩
      rw [extractOne_cons_some hb, if_pos hlt, maxScore_cons q c (c2 :: cs),
        max_eq_right hlt.le]
    · refine ⟨c, ?_, List.mem_cons_self _ _⟩
      rw [extractOne_cons_some hb, if_neg hlt, maxScore_cons q c (c2 :: cs),
        max_eq_left (not_lt.mp hlt)]


theorem le_maxScore_of_mem {q l : Str} {lt : List Str} (h : l ∈ lt) :
    tokenSortSim q l ≤ maxScore q lt := by
  induction lt with
  | nil => cases h
  | cons c cs ih =>
    rw [maxScore_cons]
    rcases List.mem_cons.mp h with rfl | h1
    · exact le_max_left _ _
    · exact (ih h1).trans (le_max_right _ _)

theorem maxScore_le_100 (q : Str) (lt : List Str) : maxScore q lt ≤ 100 := by
  induction lt with
  | nil => rw [maxScore_nil]; norm_num
  | cons c cs ih =>
    rw [maxScore_cons]
    exact max_le (tokenSortSim_le_100 q c) ih

/-! Properties of the per-entry classification. -/

theorem classify_nil (t : ℚ) (q : Str) :
    classify [] t q = ⟨q, none, 0, Status.Missing⟩ := rfl

theorem classify_of_extract_some {lt : List Str} {t : ℚ} {q b : Str} {s : ℚ}
    (h : extractOne q lt = some (b, s)) :
    classify lt t q =
      if s < t then ⟨q, some b, s, Status.Missing⟩ else ⟨q, some b, s, Status.Matched⟩ := by
  simp only [classify, h]

theorem classify_query (lt : List Str) (t : ℚ) (q : Str) : (classify lt t q).query = q := by
  cases hE : extractOne q lt with
  | none =>
    simp only [classify, hE]
  | some p =>
    obtain ⟨b, s⟩ := p
    rw [classify_of_extract_some hE]
    by_cases hlt : s < t
    · rw [if_pos hlt]
    · rw [if_neg hlt]


/-! Claim theorems. -/

/-- C1, counterexample: the staged-additions sequence built by the
lookup loop of create_missing_playlist does not keep one entry per
Missing input; with a single missing track and a lookup that returns
no candidate, the output length is 0 while the input holds 1 Missing
entry, so the entry is dropped rather than recorded with a null id. -/
theorem c1_counterexample :
    ¬ ((resolve_uris ["A - B".data] (fun _ => none)).length =
        ([("A - B".data)] : List Str).length) := by
  decide

/-- C1, amended: the output of the lookup loop has length equal to the
number of Missing inputs whose lookup returns a candidate; a lookup
returning nothing is skipped without aborting the loop, and the
entries before and after it are still processed in order. -/
theorem c1_amended_resolution :
    (∀ (missing_tracks : List Str) (search_one : Str → Option Str),
      (resolve_uris missing_tracks search_one).length =
        missing_tracks.countP (fun k => (search_one k).isSome)) ∧
    (∀ (xs ys : List Str) (search_one : Str → Option Str),
      resolve_uris (xs ++ ys) search_one =
        resolve_uris xs search_one ++ resolve_uris ys search_one) := by
  constructor
  · intro m f
    simp only [resolve_uris]
    induction m with
    | nil => rfl
    | cons x xs ih =>
      cases hx : f x with
      | none => simp [List.filterMap_cons, hx, List.countP_cons, ih]
      | some y => simp [List.filterMap_cons, hx, List.countP_cons, ih]
  · intro xs ys f
    simp [resolve_uris, List.filterMap_append]

/-- C2: the engine produces exactly one classification per remote
entry, in remote order: the result sequence has the length of the
remote sequence and projects back onto it. -/
theorem c2_one_result_per_remote_entry : ∀ (remote local_tracks : List Str) (t : ℚ),
    (reconcile remote local_tracks t).length = remote.length ∧
    (reconcile remote local_tracks t).map MatchResult.query = remote := by
  intro r lt t
  refine ⟨by simp [reconcile], ?_⟩
  simp only [reconcile, List.map_map, Function.comp_def, classify_query]
  exact List.map_id r

/-- C4: with an empty local sequence every remote key is classified
Missing with score 0 (and no candidate). -/
theorem c4_empty_local_all_missing : ∀ (remote : List Str) (t : ℚ),
    reconcile remote [] t = remote.map (fun q => ⟨q, none, 0, Status.Missing⟩) := by
  intro r t
  rfl

/-- C9: with no missing tracks create_missing_playlist returns the
null outcome immediately: no playlist value is produced and no search
query is issued, independently of the injected lookup. -/
theorem c9_empty_missing_skips : ∀ search_one : Str → Option Str,
    create_missing_playlist [] search_one = (none, []) := by
  intro f
  rfl

/-- C10: the missing list returned by find_missing_tracks is a
subsequence of the remote input: every returned key occurs in the
remote sequence, in remote order, and nothing else is returned. -/
theorem c10_missing_sublist_of_remote : ∀ (remote local_tracks : List Str) (t : ℚ),
    List.Sublist (find_missing_tracks remote local_tracks t) remote := by
  intro r lt t
  exact List.filter_sublist r

/-- C3: for a nonempty local sequence, a remote key is classified
Missing exactly when its maximum similarity over the local sequence is
strictly below the threshold, and Matched exactly when the threshold
is at most that maximum (equality counts as Matched). -/
theorem c3_missing_iff_below_threshold (q : Str) (local_tracks : List Str) (t : ℚ)
    (h : local_tracks ≠ []) :
    ((classify local_tracks t q).status = Status.Missing ↔ maxScore q local_tracks < t) ∧
    ((classify local_tracks t q).status = Status.Matched ↔ t ≤ maxScore q local_tracks) := by
  obtain ⟨c, cs, rfl⟩ : ∃ c cs, local_tracks = c :: cs := by
    cases local_tracks with
    | nil => exact absurd rfl h
    | cons c cs => exact ⟨c, cs, rfl⟩
  obtain ⟨b, hb, -⟩ := extractOne_spec q cs c
  rw [classify_of_extract_some hb]
  by_cases hlt : maxScore q (c :: cs) < t
  · rw [if_pos hlt]
    exact ⟨iff_of_true rfl hlt, iff_of_false (by simp) (not_le.mpr hlt)⟩
  · rw [if_neg hlt]
    exact ⟨iff_of_false (by simp) hlt, iff_of_true rfl (not_lt.mp hlt)⟩

/-- C3, witness: the classification of "a" against the one-element
local list ["a"] at threshold 80 obeys both equivalences. -/
theorem c3_witness : (([("a".data)] : List Str) ≠ []) ∧
    (((classify ["a".data] (80 : ℚ) "a".data).status = Status.Missing ↔
        maxScore "a".data ["a".data] < 80) ∧
     ((classify ["a".data] (80 : ℚ) "a".data).status = Status.Matched ↔
        (80 : ℚ) ≤ maxScore "a".data ["a".data])) :=
  ⟨by simp, c3_missing_iff_below_threshold "a".data ["a".data] 80 (by simp)⟩

/-- C5: if some local entry has the same token multiset as the remote
entry at position i and the threshold is at most 100, then the result
for that entry has score 100 and status Matched. -/
theorem c5_exact_match_scores_100 (remote local_tracks : List Str) (t : ℚ) (i : ℕ)
    (q : Str) (hq : remote[i]? = some q)
    (hl : ∃ l ∈ local_tracks, List.Perm (splitWs l) (splitWs q))
    (ht : t ≤ 100) :
    ∃ r, (reconcile remote local_tracks t)[i]? = some r ∧
      r.score = 100 ∧ r.status = Status.Matched := by
  obtain ⟨l, hmem, hperm⟩ := hl
  obtain ⟨c, cs, rfl⟩ : ∃ c cs, local_tracks = c :: cs := by
    cases local_tracks with
    | nil => cases hmem
    | cons c cs => exact ⟨c, cs, rfl⟩
  have h100 : tokenSortSim q l = 100 := (tokenSortSim_eq_100_iff q l).mpr hperm.symm
  have hub : maxScore q (c :: cs) ≤ 100 := maxScore_le_100 q (c :: cs)
  have hlb : (100 : ℚ) ≤ maxScore q (c :: cs) := by
    rw [← h100]
    exact le_maxScore_of_mem hmem
  have hM : maxScore q (c :: cs) = 100 := le_antisymm hub hlb
  obtain ⟨b, hb, -⟩ := extractOne_spec q cs c
  refine ⟨classify (c :: cs) t q, ?_, ?_, ?_⟩
  · simp [reconcile, List.getElem?_map, hq]
  · rw [classify_of_extract_some hb, hM, if_neg (not_lt.mpr ht)]
  · rw [classify_of_extract_some hb, hM, if_neg (not_lt.mpr ht)]

/-- C5, witness: with remote = local = ["a b"] and threshold 80, the
single result scores 100 and is Matched. -/
theorem c5_witness : ((["a b".data] : List Str)[0]? = some ("a b".data)) ∧
    (∃ l ∈ (["a b".data] : List Str), List.Perm (splitWs l) (splitWs "a b".data)) ∧
    ((80 : ℚ) ≤ 100) ∧
    (∃ r, (reconcile ["a b".data] ["a b".data] 80)[0]? = some r ∧
      r.score = 100 ∧ r.status = Status.Matched) :=
  ⟨rfl, ⟨"a b".data, List.mem_cons_self _ _, List.Perm.refl _⟩, by norm_num,
   c5_exact_match_scores_100 ["a b".data] ["a b".data] 80 0 "a b".data rfl
     ⟨"a b".data, List.mem_cons_self _ _, List.Perm.refl _⟩ (by norm_num)⟩

/-- C6: raising the threshold can only move an entry from Matched to
Missing, never the reverse: an entry Missing at a lower threshold is
Missing at every higher threshold. -/
theorem c6_threshold_monotone (q : Str) (local_tracks : List Str) (t1 t2 : ℚ)
    (h12 : t1 ≤ t2) (h : (classify local_tracks t1 q).status = Status.Missing) :
    (classify local_tracks t2 q).status = Status.Missing := by
  cases hE : extractOne q local_tracks with
  | none => simp only [classify, hE]
  | some p =>
    obtain ⟨b, s⟩ := p
    rw [classify_of_extract_some hE] at h ⊢
    by_cases hs : s < t1
    · rw [if_pos (lt_of_lt_of_le hs h12)]
    · rw [if_neg hs] at h
      simp at h

/-- C6, witness: a key Missing against the empty local list at
threshold 0 is still Missing at threshold 1. -/
theorem c6_witness : ((0 : ℚ) ≤ 1) ∧
    ((classify [] (0 : ℚ) "x".data).status = Status.Missing) ∧
    ((classify [] (1 : ℚ) "x".data).status = Status.Missing) :=
  ⟨by norm_num, rfl, c6_threshold_monotone "x".data [] 0 1 (by norm_num) rfl⟩

/-- C7, counterexample: the scorer does not always yield an integer;
scoring "a" against "ab" yields 200/3, which is not an integer. -/
theorem c7_counterexample : ¬ ∃ z : ℤ, tokenSortSim "a".data "ab".data = (z : ℚ) := by
  have hs1 : splitWs "a".data = [(['a'] : Str)] := by decide
  have hs2 : splitWs "ab".data = [(['a', 'b'] : Str)] := by decide
  have hj1 : sortJoin "a".data = ['a'] := by
    rw [sortJoin, hs1]
    simp [sortTokens, joinTokens]
  have hj2 : sortJoin "ab".data = ['a', 'b'] := by
    rw [sortJoin, hs2]
    simp [sortTokens, joinTokens]
  have hi : indel ['a'] ['a', 'b'] = 1 := by simp [indel]
  have hv : tokenSortSim "a".data "ab".data = 200 / 3 := by
    rw [tokenSortSim, hj1, hj2, normSim]
    norm_num [hi]
  rintro ⟨z, hz⟩
  rw [hv] at hz
  have h3 : (200 : ℚ) = (z : ℚ) * 3 := by
    rw [div_eq_iff (by norm_num : (3 : ℚ) ≠ 0)] at hz
    exact hz
  have h4 : (200 : ℤ) = z * 3 := by exact_mod_cast h3
  omega

/-- C7, amended: the scorer is symmetric, token-order-insensitive,
yields a rational in the interval from 0 to 100 (not always an
integer), and yields exactly 100 precisely when the two strings have
identical token multisets. -/
theorem c7_amended_scorer_properties :
    (∀ a b : Str, tokenSortSim a b = tokenSortSim b a) ∧
    (∀ a b : Str, 0 ≤ tokenSortSim a b ∧ tokenSortSim a b ≤ 100) ∧
    (∀ a b : Str, tokenSortSim a b = 100 ↔ List.Perm (splitWs a) (splitWs b)) ∧
    (∀ a a' b : Str, List.Perm (splitWs a) (splitWs a') →
      tokenSortSim a b = tokenSortSim a' b) :=
  ⟨tokenSortSim_symm,
   fun a b => ⟨tokenSortSim_nonneg a b, tokenSortSim_le_100 a b⟩,
   tokenSortSim_eq_100_iff,
   fun _ _ b h => tokenSortSim_congr_left h b⟩

/-- C7, witness: "b a" against "a b" scores the same in both
directions, and scores exactly 100 since the token multisets agree. -/
theorem c7_witness :
    tokenSortSim "b a".data "a b".data = tokenSortSim "a b".data "b a".data ∧
    tokenSortSim "b a".data "a b".data = 100 :=
  ⟨c7_amended_scorer_properties.1 _ _,
   (c7_amended_scorer_properties.2.2.1 _ _).mpr (by
      have e1 : splitWs "b a".data = [(['b'] : Str), ['a']] := by decide
      have e2 : splitWs "a b".data = [(['a'] : Str), ['b']] := by decide
      rw [e1, e2]
      exact List.Perm.swap _ _ _)⟩

/-- C8, counterexample: under the metadata-read fallback the local key
is the bare filename stem, which need not contain the " - " separator:
the key for an unreadable file with stem "song" has no such split. -/
theorem c8_counterexample : ¬ ∃ u v : Str, local_key none "song".data = u ++ keySep ++ v := by
  rintro ⟨u, v, h⟩
  have h' : ("song".data : Str) = u ++ keySep ++ v := h
  have hmid : '-' ∈ keySep := by decide
  have hd : '-' ∈ ("song".data : Str) := by
    rw [h']
    exact List.mem_append_left v (List.mem_append_right u hmid)
  exact absurd hd (by decide)

/-- C8, amended: keys built from Spotify items and from successful
local metadata reads have the form artist, separator, title, with the
artist defaulted to Unknown when the source provides none; but a key
produced under the metadata-read exception fallback is the bare
filename stem and need not contain the separator. -/
theorem c8_amended_key_shapes : ∀ (name : Str) (artist_names : List Str)
    (a t : Option Str) (stem : Str),
    (∀ k, spotify_key name artist_names = some k → ∃ u v, k = u ++ keySep ++ v) ∧
    (name ≠ [] → artist_names = [] →
      spotify_key name artist_names = some (unknownArtist ++ keySep ++ name)) ∧
    (∃ u v, local_key (some (a, t)) stem = u ++ keySep ++ v) ∧
    (a = none → local_key (some (a, t)) stem = unknownArtist ++ keySep ++ t.getD stem) := by
  intro name artists a t stem
  refine ⟨?_, ?_, ?_, ?_⟩
  · intro k hk
    unfold spotify_key at hk
    by_cases hn : name = []
    · rw [if_pos hn] at hk
      cases hk
    · rw [if_neg hn] at hk
      injection hk with hk
      exact ⟨artists.headD unknownArtist, name, hk.symm⟩
  · intro hn hart
    subst hart
    unfold spotify_key
    rw [if_neg hn]
    rfl
  · exact ⟨a.getD unknownArtist, t.getD stem, rfl⟩
  · intro ha
    subst ha
    rfl

/-- C8, witness: a Spotify item named "x" with no artists yields the
key Unknown - x, and a successful tagless metadata read also produces
a separator-bearing key. -/
theorem c8_witness : spotify_key "x".data [] = some (unknownArtist ++ keySep ++ "x".data) ∧
    (∃ u v : Str, local_key (some (none, none)) "s".data = u ++ keySep ++ v) :=
  ⟨(c8_amended_key_shapes "x".data [] none none "s".data).2.1 (by decide) rfl,
   (c8_amended_key_shapes "x".data [] none none "s".data).2.2.1⟩
